import Mathlib

/-!
Verification of the `absorb` value-binding engine.

This development shallowly embeds the core of the library: the Go type
universe the engine dispatches on, runtime values, the cached element
builder (`newBuilder` / `element`), the scalar assignment algorithm
(`_assign`, embedded as `goAssign`), and the absorber session
(`Open` / `Absorb` / `accept`).  Fatal conditions (Go panics) are
modelled by `none` / `ElemRes.panic`.  Since the embedded universe has
only unnamed types, Go assignability collapses to type equality, and
`Convert` is modelled for the identity and integer-numeric cases (the
only ones the verified flows exercise); every other conversion pair used
below is one that Go's `Convert` also rejects.
-/

set_option maxHeartbeats 1000000

/-- Struct-tag namespaces attached to one field: an association list from
tag namespace to declared binding key. -/
abbrev GTags := List (String × String)

mutual

/-- The Go types the engine distinguishes: scalar kinds, pointers,
slices, fixed-size arrays, channels, string-keyed maps and structs. -/
inductive GoType : Type where
  | tInt : GoType
  | tInt64 : GoType
  | tInt32 : GoType
  | tUint8 : GoType
  | tStr : GoType
  | tPtr : GoType → GoType
  | tSlice : GoType → GoType
  | tArray : Nat → GoType → GoType
  | tChan : GoType → GoType
  | tMap : GoType → GoType
  | tStruct : GFields → GoType
deriving DecidableEq

/-- The ordered field list of a struct type: each field has a name, its
struct tags, and a type. -/
inductive GFields : Type where
  | nil : GFields
  | fcons : String → GTags → GoType → GFields → GFields
deriving DecidableEq

end

/-- Number of fields of a struct field list. -/
def GFields.length : GFields → Nat
  | .nil => 0
  | .fcons _ _ _ rest => rest.length + 1

/-- The i-th field of a struct field list, as (name, tags, type). -/
def GFields.get? : GFields → Nat → Option (String × GTags × GoType)
  | .nil, _ => none
  | .fcons n t ty _, 0 => some (n, t, ty)
  | .fcons _ _ _ rest, i + 1 => rest.get? i

/-- Runtime Go values.  Pointers carry their pointee type and an
optional pointee (`none` is a nil pointer); channels record the list of
values sent so far; maps are association lists with string keys. -/
inductive GoVal : Type where
  | vInt : Int → GoVal
  | vInt64 : Int → GoVal
  | vInt32 : Int → GoVal
  | vUint8 : Int → GoVal
  | vStr : String → GoVal
  | vPtr : GoType → Option GoVal → GoVal
  | vSlice : GoType → List GoVal → GoVal
  | vArray : Nat → GoType → List GoVal → GoVal
  | vChan : GoType → List GoVal → GoVal
  | vMap : GoType → List (String × GoVal) → GoVal
  | vStruct : GFields → List GoVal → GoVal

/-- `reflect.Value.Type`: the static type of a value. -/
def typeOfVal : GoVal → GoType
  | .vInt _ => .tInt
  | .vInt64 _ => .tInt64
  | .vInt32 _ => .tInt32
  | .vUint8 _ => .tUint8
  | .vStr _ => .tStr
  | .vPtr t _ => .tPtr t
  | .vSlice t _ => .tSlice t
  | .vArray n t _ => .tArray n t
  | .vChan t _ => .tChan t
  | .vMap vt _ => .tMap vt
  | .vStruct fs _ => .tStruct fs

mutual

/-- `reflect.New(t).Elem()`: the zero value of a type. -/
def zeroVal : GoType → GoVal
  | .tInt => .vInt 0
  | .tInt64 => .vInt64 0
  | .tInt32 => .vInt32 0
  | .tUint8 => .vUint8 0
  | .tStr => .vStr ""
  | .tPtr t => .vPtr t none
  | .tSlice t => .vSlice t []
  | .tArray n t => .vArray n t (List.replicate n (zeroVal t))
  | .tChan t => .vChan t []
  | .tMap vt => .vMap vt []
  | .tStruct fs => .vStruct fs (zeroFields fs)

/-- Zero values for every field of a struct field list. -/
def zeroFields : GFields → List GoVal
  | .nil => []
  | .fcons _ _ ty rest => zeroVal ty :: zeroFields rest

end

/-- `reflect.StructTag.Lookup`: the declared binding key of a field in
one tag namespace, if any. -/
def tagLookup : GTags → String → Option String
  | [], _ => none
  | (k, v) :: rest, key => if k = key then some v else tagLookup rest key

/-- Go map insertion (`m[k] = v`): replaces an existing binding. -/
def mapInsert {A : Type} : List (String × A) → String → A → List (String × A)
  | [], k, v => [(k, v)]
  | (k', v') :: rest, k, v =>
      if k' = k then (k, v) :: rest else (k', v') :: mapInsert rest k v

/-- Go map lookup (`m[k]`). -/
def mapLookup {A : Type} : List (String × A) → String → Option A
  | [], _ => none
  | (k', v') :: rest, k => if k' = k then some v' else mapLookup rest k

/-- ASCII lowercase of one character (the case folding
`strings.ToLower` applies to field names and keys). -/
def lowerChar (c : Char) : Char :=
  if c.isUpper then Char.ofNat (c.toNat + 32) else c

/-- ASCII lowercase of a string (`strings.ToLower` on identifiers). -/
def lowerStr (s : String) : String := ⟨s.data.map lowerChar⟩

/-- Two's-complement wrap to a signed 64-bit integer (Go `int`/`int64`
conversion). -/
def wrap64 (n : Int) : Int := (n + 2 ^ 63) % 2 ^ 64 - 2 ^ 63

/-- Two's-complement wrap to a signed 32-bit integer (Go `int32`
conversion). -/
def wrap32 (n : Int) : Int := (n + 2 ^ 31) % 2 ^ 32 - 2 ^ 31

/-- Truncation to an unsigned 8-bit integer (Go `byte` conversion). -/
def wrap8 (n : Int) : Int := n % 2 ^ 8

/-- The integer carried by a value of a numeric kind. -/
def numericValue : GoVal → Option Int
  | .vInt n => some n
  | .vInt64 n => some n
  | .vInt32 n => some n
  | .vUint8 n => some n
  | _ => none

/-- `reflect.Value.Convert`: identity conversion, or a numeric
conversion between the integer kinds.  `none` models the panic on a
conversion Go rejects. -/
def convert (v : GoVal) (t : GoType) : Option GoVal :=
  if typeOfVal v = t then some v
  else
    match numericValue v, t with
    | some n, .tInt => some (.vInt (wrap64 n))
    | some n, .tInt64 => some (.vInt64 (wrap64 n))
    | some n, .tInt32 => some (.vInt32 (wrap32 n))
    | some n, .tUint8 => some (.vUint8 (wrap8 n))
    | _, _ => none

/-- `_assign(dst, src)` from elements.go: since every success path
overwrites `dst`, the embedding returns the value stored into a slot of
type `dstType`, or `none` for the panic paths.  The steps mirror the
source: direct assignment when the types agree, one implicit dereference
of a pointer source (a nil source dereferences to the invalid value),
allocation through a pointer destination, and a final `Convert`. -/
def goAssign (dstType : GoType) (src : GoVal) : Option GoVal :=
  if typeOfVal src = dstType then some src
  else
    let srcUnwrapped : Option GoVal :=
      match src with
      | .vPtr _ p => p
      | v => some v
    match dstType, srcUnwrapped with
    | .tPtr pt, some s =>
        if typeOfVal s = pt then some (.vPtr pt (some s))
        else (convert s pt).map (fun c => .vPtr pt (some c))
    | .tPtr _, none => none
    | dt, some s => convert s dt
    | _, none => none

/-- `reflect.Indirect` on a possibly-invalid value (`none` is the
invalid `reflect.Value{}`): dereferences one pointer level; a nil
pointer dereferences to the invalid value. -/
def indirectVal : Option GoVal → Option GoVal
  | some (.vPtr _ (some p)) => some p
  | some (.vPtr _ none) => none
  | some v => some v
  | none => none

/-- The cached binding plan of elements.go: the element type, the
session's keys, and (for struct elements) one resolved field index per
key; `none` is the zero `reflect.StructField` left for an unmatched
key. -/
structure ElementBuilder where
  Typ : GoType
  Keys : List String
  Fields : List (Option Nat)

/-- The field-resolution table of `newBuilder`: walks the struct fields
in order; a field with a declared tag in the namespace is registered
under the tag value alone (an empty tag value excludes the field);
otherwise the field is registered under its name, and under its
lowercased name when that entry is still free. -/
def buildMappedAux (tag : String) : Nat → GFields → List (String × Nat) → List (String × Nat)
  | _, .nil, m => m
  | i, .fcons name tags _ rest, m =>
      let m' :=
        match tagLookup tags tag with
        | some tv => if tv = "" then m else mapInsert m tv i
        | none =>
            let m1 := mapInsert m name i
            let lowered := lowerStr name
            if (mapLookup m1 lowered).isSome then m1 else mapInsert m1 lowered i
      buildMappedAux tag (i + 1) rest m'

/-- The full field-resolution table for a struct type. -/
def buildMapped (tag : String) (fs : GFields) : List (String × Nat) :=
  buildMappedAux tag 0 fs []

/-- Key resolution in `newBuilder`: exact lookup in the table, falling
back to a case-insensitive lookup. -/
def resolveKey (mapped : List (String × Nat)) (k : String) : Option Nat :=
  match mapLookup mapped k with
  | some i => some i
  | none => mapLookup mapped (lowerStr k)

/-- `newBuilder(elemTyp, tag, keys)`: resolves each key to a struct
field for struct element types; other element types carry no field
resolution. -/
def newBuilder (elemTyp : GoType) (tag : String) (keys : List String) : ElementBuilder :=
  match elemTyp with
  | .tStruct fs =>
      { Typ := elemTyp, Keys := keys,
        Fields := keys.map (resolveKey (buildMapped tag fs)) }
  | t => { Typ := t, Keys := keys, Fields := [] }

/-- The struct loop of `element`: for each resolved field slot, reads
the column value at the running index (an out-of-range read panics), a
nil value is skipped, a resolved field receives the value via
`_assign`, and an unmatched key (`FieldByIndex` of the zero field's nil
index path) targets the element as a whole. -/
def elemStructLoop (fs : GFields) (flds : List (Option Nat))
    (values : List (Option GoVal)) (cur : List GoVal) (idx : Nat) : Option (List GoVal) :=
  match flds with
  | [] => some cur
  | f :: rest =>
      match values[idx]? with
      | none => none
      | some vo =>
          match vo with
          | none => elemStructLoop fs rest values cur (idx + 1)
          | some v =>
              match f with
              | some i =>
                  match fs.get? i with
                  | none => none
                  | some fld =>
                      match goAssign fld.2.2 v with
                      | some w => elemStructLoop fs rest values (cur.set i w) (idx + 1)
                      | none => none
              | none =>
                  match goAssign (.tStruct fs) v with
                  | some (.vStruct _ newVals) => elemStructLoop fs rest values newVals (idx + 1)
                  | _ => none

/-- The map loop of `element`: each column value is assigned into the
map's value slot and stored under the session key of its position; a
nil value leaves its key absent; a position beyond the declared keys
panics. -/
def elemMapLoop (vt : GoType) : List String → List (Option GoVal) →
    List (String × GoVal) → Option (List (String × GoVal))
  | _, [], acc => some acc
  | [], _ :: _, _ => none
  | _ :: ks, none :: rest, acc => elemMapLoop vt ks rest acc
  | k :: ks, some v :: rest, acc =>
      match goAssign vt v with
      | some w => elemMapLoop vt ks rest (mapInsert acc k w)
      | none => none

/-- Result of `elementBuilder.element`: a panic, the invalid
`reflect.Value{}` (returned for an empty scalar row), or a value. -/
inductive ElemRes : Type where
  | panic : ElemRes
  | invalid : ElemRes
  | val : GoVal → ElemRes

/-- `elementBuilder.element(values)`: builds one element from a row.
Struct elements are returned behind a pointer; a scalar row of one
value is returned directly when its type already matches the element
type or its pointer type, and is otherwise assigned into a fresh
allocation. -/
def element (b : ElementBuilder) (values : List (Option GoVal)) : ElemRes :=
  match b.Typ with
  | .tMap vt =>
      match elemMapLoop vt b.Keys values [] with
      | some entries => .val (.vMap vt entries)
      | none => .panic
  | .tStruct fs =>
      match elemStructLoop fs b.Fields values (zeroFields fs) 0 with
      | some fvals => .val (.vPtr (.tStruct fs) (some (.vStruct fs fvals)))
      | none => .panic
  | t =>
      match values with
      | [] => .invalid
      | [vo] =>
          match vo with
          | none => .panic
          | some v =>
              if typeOfVal v = t ∨ typeOfVal v = .tPtr t then .val v
              else
                match goAssign t v with
                | some r => .val (.vPtr t (some r))
                | none => .panic
      | _ => .panic

/-- One absorber session after `Open`: the settable destination value,
the element cursor, the bound plan, and whether built elements are
dereferenced before acceptance. -/
structure AbsorberState where
  setVal : GoVal
  idx : Nat
  builder : ElementBuilder
  unwrap : Bool

/-- The element-type computation of `absorberImpl.Open`: an array
destination checks the count hint against its capacity and descends to
its element type only when keys were declared; a slice likewise; a
channel always descends; any other destination is single-valued and
rejects a count hint above one. -/
def openElemType (t : GoType) (count : Int) (keys : List String) : Option GoType :=
  match t with
  | .tArray n et => if (n : Int) < count then none
      else some (if keys.isEmpty then .tArray n et else et)
  | .tSlice et => some (if keys.isEmpty then .tSlice et else et)
  | .tChan et => some et
  | other => if 1 < count then none else some other

/-- The plan and unwrap flag `Open` computes, which depend only on the
destination's type: strips one final pointer level from the element
type (elements then need no unwrapping) and binds the plan. -/
def openCore (t : GoType) (tag : String) (count : Int) (keys : List String) :
    Option (ElementBuilder × Bool) :=
  match openElemType t count keys with
  | none => none
  | some (.tPtr pt) => some (newBuilder pt tag keys, false)
  | some et => some (newBuilder et tag keys, true)

/-- `absorberImpl.Open(tag, count, keys...)` on a settable destination
value: classifies the destination, resets the cursor, and binds the
plan. -/
def openA (setVal : GoVal) (tag : String) (count : Int) (keys : List String) :
    Option AbsorberState :=
  (openCore (typeOfVal setVal) tag count keys).map fun bu => ⟨setVal, 0, bu.1, bu.2⟩

/-- `accept(into, elem, idx)`: sends on a channel, replaces a slice by a
type-identical slice element or appends otherwise, writes an array cell
at the cursor (out of range panics), stores through a pointer
(allocating for a non-pointer element), and otherwise overwrites the
single destination value.  `none` models the panics on type mismatch
and array overflow. -/
def accept (into : GoVal) (elem : GoVal) (idx : Nat) : Option GoVal :=
  match into with
  | .vChan t sent =>
      if typeOfVal elem = t then some (.vChan t (sent ++ [elem])) else none
  | .vSlice t xs =>
      if typeOfVal elem = .tSlice t then some elem
      else if typeOfVal elem = t then some (.vSlice t (xs ++ [elem]))
      else none
  | .vArray n t xs =>
      if idx < n ∧ typeOfVal elem = t then some (.vArray n t (xs.set idx elem)) else none
  | .vPtr t _ =>
      match elem with
      | .vPtr pt p => if pt = t then some (.vPtr t p) else none
      | e => if typeOfVal e = t then some (.vPtr t (some e)) else none
  | v => if typeOfVal elem = typeOfVal v then some elem else none

/-- `absorberImpl.Absorb(values...)`: builds the element, unwraps it
when the session requires, enforces that a session without declared
keys accepts at most one element, and accepts the element into the
destination, advancing the cursor.  `none` models every fatal path,
including acceptance of the invalid value. -/
def absorbA (st : AbsorberState) (values : List (Option GoVal)) : Option AbsorberState :=
  match element st.builder values with
  | .panic => none
  | .invalid => none
  | .val e0 =>
      let e1 := if st.unwrap then indirectVal (some e0) else some e0
      if st.idx > 0 ∧ st.builder.Keys = [] then none
      else
        match e1 with
        | none => none
        | some e =>
            match accept st.setVal e st.idx with
            | none => none
            | some nv => some { st with setVal := nv, idx := st.idx + 1 }

/-- A whole batch of `Absorb` calls, in order. -/
def absorbMany (st : AbsorberState) : List (List (Option GoVal)) → Option AbsorberState
  | [] => some st
  | row :: rest =>
      match absorbA st row with
      | none => none
      | some st' => absorbMany st' rest

/-- Whether a field list declares a field of the given name. -/
def nameMem (n : String) : GFields → Bool
  | .nil => false
  | .fcons name _ _ rest => n == name || nameMem n rest

/-- Whether the field names of a field list are pairwise distinct (a Go
struct type always satisfies this). -/
def namesDistinct : GFields → Bool
  | .nil => true
  | .fcons name _ _ rest => !nameMem name rest && namesDistinct rest

/-- Whether no field of the list declares a tag in the given namespace. -/
def allUntagged (tag : String) : GFields → Bool
  | .nil => true
  | .fcons _ tags _ rest => (tagLookup tags tag).isNone && allUntagged tag rest

/-- Whether no field of the list can overwrite the resolution-table
entry for key `k`: a tagged field must not declare `k` (the empty tag
registers nothing), and an untagged field must not be named `k`
(lowercased names never overwrite an existing entry). -/
def avoidsKey (tag k : String) : GFields → Bool
  | .nil => true
  | .fcons name tags _ rest =>
      (match tagLookup tags tag with
       | some tv => tv == "" || tv != k
       | none => name != k) && avoidsKey tag k rest

/-- Drop the first `n` fields of a field list. -/
def GFields.drop : GFields → Nat → GFields
  | fs, 0 => fs
  | .nil, _ + 1 => .nil
  | .fcons _ _ _ rest, n + 1 => rest.drop n

/-- The field names of a field list, in declaration order. -/
def namesOf : GFields → List String
  | .nil => []
  | .fcons name _ _ rest => name :: namesOf rest

/-- The registered binding keys a single field may contribute to the
resolution table: its non-empty tag value alone when tagged, else its
name or lowercased name. -/
def entryFor (tag : String) (k : String) (f : String × GTags × GoType) : Prop :=
  match tagLookup f.2.1 tag with
  | some tv => tv ≠ "" ∧ k = tv
  | none => k = f.1 ∨ k = lowerStr f.1

/-- Element kinds whose rows go through the scalar branch of `element`
and need no unwrapping: neither struct, nor map, nor pointer. -/
def plainKind : GoType → Bool
  | .tStruct _ => false
  | .tMap _ => false
  | .tPtr _ => false
  | _ => true

/-- Destination kinds classified by the default (single-valued) branch
of `Open`: neither array, nor slice, nor channel. -/
def singleKind : GoType → Bool
  | .tArray _ _ => false
  | .tSlice _ => false
  | .tChan _ => false
  | _ => true

/-- One `Absorb` row builds (and, per the session flag, unwraps to) the
element `e`. -/
def buildsElem (b : ElementBuilder) (uw : Bool) (row : List (Option GoVal)) (e : GoVal) : Prop :=
  ∃ e0, element b row = .val e0 ∧ (if uw then indirectVal (some e0) else some e0) = some e

/-- The value a row slot contributes to a keyed mapping: the slot's
value pushed through `_assign` into the map's value type (`none` when
the slot is absent). -/
def rowAssign (vt : GoType) (vo : Option GoVal) : Option GoVal :=
  vo.bind (goAssign vt)

def nameOnlyFields : GFields := .fcons "Name" [] .tStr .nil

def testDstFields : GFields :=
  .fcons "Name" [] .tStr
    (.fcons "Actual" [("test", "Aliased")] .tInt
      (.fcons "Unused" [] .tInt .nil))

def roundTripFields : GFields :=
  .fcons "Name" [] .tStr (.fcons "Count" [] .tInt .nil)

def singleIntField : GFields := .fcons "A" [] .tInt .nil

def twoIntFields : GFields := .fcons "A" [] .tInt (.fcons "B" [] .tInt .nil)

theorem GFields.induct (P : GFields → Prop) (hnil : P .nil)
    (hcons : ∀ n t ty rest, P rest → P (.fcons n t ty rest)) : ∀ fs, P fs
  | .nil => hnil
  | .fcons n t ty rest => hcons n t ty rest (GFields.induct P hnil hcons rest)

theorem mapLookup_insert_self {A : Type} (m : List (String × A)) (k : String) (v : A) :
    mapLookup (mapInsert m k v) k = some v := by
  induction m with
  | nil => simp [mapInsert, mapLookup]
  | cons hd tl ih =>
    obtain ⟨k', v'⟩ := hd
    by_cases h : k' = k <;> simp [mapInsert, mapLookup, h, ih]

theorem mapLookup_insert_ne {A : Type} (m : List (String × A)) (k k' : String) (v : A)
    (h : k' ≠ k) : mapLookup (mapInsert m k v) k' = mapLookup m k' := by
  have h' : ¬k = k' := fun hh => h hh.symm
  induction m with
  | nil => simp [mapInsert, mapLookup, h']
  | cons hd tl ih =>
    obtain ⟨k0, v0⟩ := hd
    by_cases h0 : k0 = k
    · subst h0
      simp [mapInsert, mapLookup, h', h]
    · simp only [mapInsert, if_neg h0]
      by_cases h1 : k0 = k'
      · simp [mapLookup, h1]
      · simp [mapLookup, h1, ih]

theorem buildMappedAux_preserve (tag k : String) :
    ∀ (fs : GFields), (∀ (i : Nat) (m : List (String × Nat)) (v : Nat),
      mapLookup m k = some v → avoidsKey tag k fs = true →
      mapLookup (buildMappedAux tag i fs m) k = some v) := by
  intro fs
  induction fs using GFields.induct with
  | hnil => intro i m v hm _; simpa [buildMappedAux] using hm
  | hcons name tags ty rest ih =>
    intro i m v hm hav
    simp only [avoidsKey, Bool.and_eq_true] at hav
    obtain ⟨havh, havt⟩ := hav
    simp only [buildMappedAux]
    cases htag : tagLookup tags tag with
    | some tv =>
      rw [htag] at havh
      by_cases he : tv = ""
      · simp only [he, if_pos rfl]
        exact ih (i + 1) m v hm havt
      · simp only [if_neg he]
        have hne : k ≠ tv := by
          simp only [Bool.or_eq_true, beq_iff_eq, bne_iff_ne, ne_eq] at havh
          rcases havh with h | h
          · exact absurd h he
          · exact fun hh => h hh.symm
        exact ih (i + 1) _ v (by rw [mapLookup_insert_ne m tv k i hne]; exact hm) havt
    | none =>
      rw [htag] at havh
      have hnk : k ≠ name := by
        simp only [bne_iff_ne, ne_eq] at havh
        exact fun hh => havh hh.symm
      have hm1 : mapLookup (mapInsert m name i) k = some v := by
        rw [mapLookup_insert_ne m name k i hnk]; exact hm
      by_cases hlow : (mapLookup (mapInsert m name i) (lowerStr name)).isSome
      · simp only [hlow, if_pos]
        exact ih (i + 1) _ v hm1 havt
      · simp only [hlow, Bool.false_eq_true, if_false]
        have hlk : k ≠ lowerStr name := by
          intro hh
          rw [← hh] at hlow
          simp [hm1] at hlow
        exact ih (i + 1) _ v
          (by rw [mapLookup_insert_ne _ (lowerStr name) k i hlk]; exact hm1) havt

theorem buildMappedAux_hit (tag : String) :
    ∀ (fs : GFields) (j : Nat) (f : String × GTags × GoType) (bk : String)
      (i : Nat) (m : List (String × Nat)),
      fs.get? j = some f →
      (match tagLookup f.2.1 tag with
       | some tv => tv ≠ "" ∧ bk = tv
       | none => bk = f.1) →
      avoidsKey tag bk (fs.drop (j + 1)) = true →
      mapLookup (buildMappedAux tag i fs m) bk = some (i + j) := by
  intro fs
  induction fs using GFields.induct with
  | hnil => intro j f bk i m hget; simp [GFields.get?] at hget
  | hcons name tags ty rest ih =>
    intro j f bk i m hget hbk hav
    cases j with
    | zero =>
      simp only [GFields.get?] at hget
      injection hget with hf
      subst hf
      simp only [GFields.drop] at hav
      simp only [buildMappedAux]
      cases htag : tagLookup tags tag with
      | some tv =>
        rw [htag] at hbk
        obtain ⟨hne, hbk⟩ := hbk
        subst hbk
        simp only [if_neg hne]
        rw [Nat.add_zero]
        exact buildMappedAux_preserve tag bk rest (i + 1) _ i
          (mapLookup_insert_self m bk i) hav
      | none =>
        rw [htag] at hbk
        subst hbk
        rw [Nat.add_zero]
        have hm1 : mapLookup (mapInsert m bk i) bk = some i :=
          mapLookup_insert_self m bk i
        by_cases hlow : (mapLookup (mapInsert m bk i) (lowerStr bk)).isSome
        · simp only [hlow, if_pos]
          exact buildMappedAux_preserve tag bk rest (i + 1) _ i hm1 hav
        · simp only [hlow, Bool.false_eq_true, if_false]
          have hlk : bk ≠ lowerStr bk := by
            intro hh
            rw [← hh] at hlow
            simp [hm1] at hlow
          exact buildMappedAux_preserve tag bk rest (i + 1) _ i
            (by rw [mapLookup_insert_ne _ (lowerStr bk) bk i hlk]; exact hm1) hav
    | succ j' =>
      simp only [GFields.get?] at hget
      simp only [GFields.drop] at hav
      simp only [buildMappedAux]
      have := ih j' f bk (i + 1) (match tagLookup tags tag with
        | some tv => if tv = "" then m else mapInsert m tv i
        | none =>
            let m1 := mapInsert m name i
            let lowered := lowerStr name
            if (mapLookup m1 lowered).isSome then m1 else mapInsert m1 lowered i) hget hbk hav
      rw [show i + (j' + 1) = i + 1 + j' by omega]
      exact this

theorem buildMappedAux_origin (tag : String) :
    ∀ (fs : GFields) (i : Nat) (m : List (String × Nat)) (k : String) (v : Nat),
      mapLookup (buildMappedAux tag i fs m) k = some v →
      mapLookup m k = some v ∨
        ∃ j f, fs.get? j = some f ∧ v = i + j ∧ entryFor tag k f := by
  intro fs
  induction fs using GFields.induct with
  | hnil => intro i m k v h; left; simpa [buildMappedAux] using h
  | hcons name tags ty rest ih =>
    intro i m k v h
    simp only [buildMappedAux] at h
    cases htag : tagLookup tags tag with
    | some tv =>
      simp only [htag] at h
      by_cases he : tv = ""
      · rw [if_pos he] at h
        rcases ih (i + 1) m k v h with hbase | ⟨j, f, hget, hv, hentry⟩
        · exact Or.inl hbase
        · exact Or.inr ⟨j + 1, f, by simpa [GFields.get?] using hget, by omega, hentry⟩
      · rw [if_neg he] at h
        rcases ih (i + 1) _ k v h with hbase | ⟨j, f, hget, hv, hentry⟩
        · by_cases hk : k = tv
          · subst hk
            rw [mapLookup_insert_self] at hbase
            injection hbase with hv
            right
            exact ⟨0, (name, tags, ty), rfl, by omega, by simp [entryFor, htag, he]⟩
          · rw [mapLookup_insert_ne m tv k i hk] at hbase
            exact Or.inl hbase
        · exact Or.inr ⟨j + 1, f, by simpa [GFields.get?] using hget, by omega, hentry⟩
    | none =>
      simp only [htag] at h
      by_cases hlow : (mapLookup (mapInsert m name i) (lowerStr name)).isSome
      · rw [if_pos hlow] at h
        rcases ih (i + 1) _ k v h with hbase | ⟨j, f, hget, hv, hentry⟩
        · by_cases hk : k = name
          · subst hk
            rw [mapLookup_insert_self] at hbase
            injection hbase with hv
            right
            exact ⟨0, (k, tags, ty), rfl, by omega, by simp [entryFor, htag]⟩
          · rw [mapLookup_insert_ne m name k i hk] at hbase
            exact Or.inl hbase
        · exact Or.inr ⟨j + 1, f, by simpa [GFields.get?] using hget, by omega, hentry⟩
      · simp only [hlow, Bool.false_eq_true, if_false] at h
        rcases ih (i + 1) _ k v h with hbase | ⟨j, f, hget, hv, hentry⟩
        · by_cases hkl : k = lowerStr name
          · subst hkl
            rw [mapLookup_insert_self] at hbase
            injection hbase with hv
            right
            exact ⟨0, (name, tags, ty), rfl, by omega, by simp [entryFor, htag]⟩
          · rw [mapLookup_insert_ne _ (lowerStr name) k i hkl] at hbase
            by_cases hk : k = name
            · subst hk
              rw [mapLookup_insert_self] at hbase
              injection hbase with hv
              right
              exact ⟨0, (k, tags, ty), rfl, by omega, by simp [entryFor, htag]⟩
            · rw [mapLookup_insert_ne m name k i hk] at hbase
              exact Or.inl hbase
        · exact Or.inr ⟨j + 1, f, by simpa [GFields.get?] using hget, by omega, hentry⟩

theorem avoidsKey_of_untagged (tag k : String) :
    ∀ (fs : GFields), allUntagged tag fs = true → nameMem k fs = false →
      avoidsKey tag k fs = true := by
  intro fs
  induction fs using GFields.induct with
  | hnil => intro _ _; rfl
  | hcons name tags ty rest ih =>
    intro hu hm
    simp only [allUntagged, Bool.and_eq_true, Option.isNone_iff_eq_none] at hu
    simp only [nameMem, Bool.or_eq_false_iff, beq_eq_false_iff_ne, ne_eq] at hm
    simp only [avoidsKey, hu.1, Bool.and_eq_true, bne_iff_ne, ne_eq]
    exact ⟨fun hh => hm.1 hh.symm, ih hu.2 hm.2⟩

theorem nameMem_drop_of_distinct :
    ∀ (fs : GFields) (j : Nat) (f : String × GTags × GoType),
      namesDistinct fs = true → fs.get? j = some f →
      nameMem f.1 (fs.drop (j + 1)) = false := by
  intro fs
  induction fs using GFields.induct with
  | hnil => intro j f _ hget; simp [GFields.get?] at hget
  | hcons name tags ty rest ih =>
    intro j f hd hget
    simp only [namesDistinct, Bool.and_eq_true, Bool.not_eq_true'] at hd
    cases j with
    | zero =>
      simp only [GFields.get?] at hget
      injection hget with hf
      subst hf
      simpa [GFields.drop] using hd.1
    | succ j' =>
      simp only [GFields.get?] at hget
      simp only [GFields.drop]
      exact ih j' f hd.2 hget

theorem allUntagged_drop (tag : String) :
    ∀ (fs : GFields) (n : Nat), allUntagged tag fs = true →
      allUntagged tag (fs.drop n) = true := by
  intro fs
  induction fs using GFields.induct with
  | hnil => intro n _; cases n <;> rfl
  | hcons name tags ty rest ih =>
    intro n hu
    cases n with
    | zero => exact hu
    | succ n' =>
      simp only [allUntagged, Bool.and_eq_true] at hu
      exact ih n' hu.2

theorem allUntagged_get? (tag : String) :
    ∀ (fs : GFields) (j : Nat) (f : String × GTags × GoType),
      allUntagged tag fs = true → fs.get? j = some f →
      tagLookup f.2.1 tag = none := by
  intro fs
  induction fs using GFields.induct with
  | hnil => intro j f _ hget; simp [GFields.get?] at hget
  | hcons name tags ty rest ih =>
    intro j f hu hget
    simp only [allUntagged, Bool.and_eq_true, Option.isNone_iff_eq_none] at hu
    cases j with
    | zero =>
      simp only [GFields.get?] at hget
      injection hget with hf
      subst hf
      exact hu.1
    | succ j' =>
      simp only [GFields.get?] at hget
      exact ih j' f hu.2 hget

theorem namesOf_length : ∀ (fs : GFields), (namesOf fs).length = fs.length := by
  intro fs
  induction fs using GFields.induct with
  | hnil => rfl
  | hcons name tags ty rest ih => simp [namesOf, GFields.length, ih]

theorem namesOf_getElem? : ∀ (fs : GFields) (j : Nat),
    (namesOf fs)[j]? = (fs.get? j).map (fun f => f.1) := by
  intro fs
  induction fs using GFields.induct with
  | hnil => intro j; simp [namesOf, GFields.get?]
  | hcons name tags ty rest ih =>
    intro j
    cases j with
    | zero => simp [namesOf, GFields.get?]
    | succ j' => simpa [namesOf, GFields.get?] using ih j'

theorem zeroFields_length : ∀ (fs : GFields), (zeroFields fs).length = fs.length := by
  intro fs
  induction fs using GFields.induct with
  | hnil => rfl
  | hcons name tags ty rest ih => simp [zeroFields, GFields.length, ih]

theorem typeOfVal_struct_inv (v : GoVal) (fs : GFields) (h : typeOfVal v = .tStruct fs) :
    ∃ xs, v = .vStruct fs xs := by
  cases v <;> simp [typeOfVal] at h
  next fs' xs => exact ⟨xs, by rw [h]⟩

theorem typeOfVal_map_inv (v : GoVal) (vt : GoType) (h : typeOfVal v = .tMap vt) :
    ∃ es, v = .vMap vt es := by
  cases v <;> simp [typeOfVal] at h
  next vt' es => exact ⟨es, by rw [h]⟩

theorem indirectVal_of_nonPtr (v : GoVal) (h : ∀ pt p, v ≠ .vPtr pt p) :
    indirectVal (some v) = some v := by
  cases v <;> first
    | rfl
    | (next pt p => exact absurd rfl (h pt p))

theorem goAssign_eqType (t : GoType) (v : GoVal) (h : typeOfVal v = t) :
    goAssign t v = some v := by
  simp [goAssign, h]

theorem accept_typeOf : ∀ (into elem : GoVal) (idx : Nat) (out : GoVal),
    accept into elem idx = some out → typeOfVal out = typeOfVal into := by
  intro into elem idx out h
  cases into <;> cases elem <;>
    simp only [accept] at h <;>
    (repeat' split at h) <;>
    first
      | exact Option.noConfusion h
      | (injection h with h; rw [← h]; simp_all [typeOfVal])

theorem absorbA_some_inv (st : AbsorberState) (vals : List (Option GoVal)) (st' : AbsorberState)
    (h : absorbA st vals = some st') :
    typeOfVal st'.setVal = typeOfVal st.setVal ∧ st'.idx = st.idx + 1 ∧
      st'.builder = st.builder ∧ st'.unwrap = st.unwrap := by
  simp only [absorbA] at h
  split at h
  · exact Option.noConfusion h
  · exact Option.noConfusion h
  · split at h
    · exact Option.noConfusion h
    · split at h
      · exact Option.noConfusion h
      · rename_i e he
        cases ha : accept st.setVal e st.idx with
        | none => rw [ha] at h; exact Option.noConfusion h
        | some nv =>
          rw [ha] at h
          injection h with h
          subst h
          exact ⟨accept_typeOf _ _ _ _ ha, rfl, rfl, rfl⟩

theorem absorbA_noKeys_used (st : AbsorberState) (vals : List (Option GoVal))
    (hk : st.builder.Keys = []) (hidx : 0 < st.idx) : absorbA st vals = none := by
  simp only [absorbA]
  split
  · rfl
  · rfl
  · simp [hk, hidx]

theorem tSlice_ne_self (t : GoType) : GoType.tSlice t ≠ t := by
  intro h
  have hs := congrArg sizeOf h
  simp only [GoType.tSlice.sizeOf_spec] at hs
  omega

theorem absorbA_some_parts (st : AbsorberState) (vals : List (Option GoVal)) (st' : AbsorberState)
    (h : absorbA st vals = some st') :
    ∃ e0 e nv, element st.builder vals = .val e0 ∧
      (if st.unwrap then indirectVal (some e0) else some e0) = some e ∧
      accept st.setVal e st.idx = some nv ∧
      st' = ⟨nv, st.idx + 1, st.builder, st.unwrap⟩ := by
  simp only [absorbA] at h
  split at h
  · exact Option.noConfusion h
  · exact Option.noConfusion h
  · rename_i e0 hel
    split at h
    · exact Option.noConfusion h
    · split at h
      · exact Option.noConfusion h
      · rename_i e he
        cases ha : accept st.setVal e st.idx with
        | none => rw [ha] at h; exact Option.noConfusion h
        | some nv =>
          rw [ha] at h
          injection h with h
          exact ⟨e0, e, nv, hel, he, ha, h.symm⟩

theorem absorbA_steps (st : AbsorberState) (vals : List (Option GoVal))
    (e0 e nv : GoVal)
    (hel : element st.builder vals = .val e0)
    (he : (if st.unwrap then indirectVal (some e0) else some e0) = some e)
    (hguard : ¬(st.idx > 0 ∧ st.builder.Keys = []))
    (ha : accept st.setVal e st.idx = some nv) :
    absorbA st vals = some ⟨nv, st.idx + 1, st.builder, st.unwrap⟩ := by
  simp only [absorbA, hel, he, hguard, if_false, ha]

theorem newBuilder_Keys (t : GoType) (tag : String) (keys : List String) :
    (newBuilder t tag keys).Keys = keys := by
  cases t <;> rfl

theorem accept_slice_append (t : GoType) (xs : List GoVal) (e : GoVal) (idx : Nat)
    (ht : typeOfVal e = t) : accept (.vSlice t xs) e idx = some (.vSlice t (xs ++ [e])) := by
  have h1 : ¬(t = GoType.tSlice t) := fun hh => tSlice_ne_self t hh.symm
  simp [accept, ht, h1]

theorem accept_array_write (n : Nat) (t : GoType) (xs : List GoVal) (e : GoVal) (idx : Nat)
    (hi : idx < n) (ht : typeOfVal e = t) :
    accept (.vArray n t xs) e idx = some (.vArray n t (xs.set idx e)) := by
  simp [accept, hi, ht]

theorem absorbMany_slice (t : GoType) (b : ElementBuilder) (uw : Bool) (hk : b.Keys ≠ []) :
    ∀ (rows : List (List (Option GoVal))) (es : List GoVal),
      List.Forall₂ (buildsElem b uw) rows es →
      (∀ e ∈ es, typeOfVal e = t) →
      ∀ (xs : List GoVal) (i : Nat),
        absorbMany ⟨.vSlice t xs, i, b, uw⟩ rows =
          some ⟨.vSlice t (xs ++ es), i + rows.length, b, uw⟩ := by
  intro rows es hf
  induction hf with
  | nil => intro _ xs i; simp [absorbMany]
  | @cons row e rows' es' hre hrest ih =>
    intro hty xs i
    obtain ⟨e0, hel, hunw⟩ := hre
    have habs : absorbA ⟨.vSlice t xs, i, b, uw⟩ row =
        some ⟨.vSlice t (xs ++ [e]), i + 1, b, uw⟩ :=
      absorbA_steps _ _ _ _ _ hel hunw (by simp [hk])
        (accept_slice_append t xs e i (hty e (List.mem_cons_self _ _)))
    simp only [absorbMany, habs]
    have := ih (fun e' he' => hty e' (List.mem_cons_of_mem _ he')) (xs ++ [e]) (i + 1)
    rw [this]
    simp only [List.append_assoc, List.singleton_append, List.length_cons]
    congr 2
    omega

theorem take_set_succ {α : Type} (l : List α) (i : Nat) (a : α) (h : i < l.length) :
    (l.set i a).take (i + 1) = l.take i ++ [a] := by
  rw [List.take_succ]
  congr 1
  · apply List.ext_getElem (by simp)
    intro j h1 h2
    have : i ≠ j := by simp at h1; omega
    simp [List.getElem_set, this]
  · simp [List.getElem?_set, h]

theorem absorbMany_array (n : Nat) (t : GoType) (b : ElementBuilder) (uw : Bool)
    (hk : b.Keys ≠ []) :
    ∀ (rows : List (List (Option GoVal))) (es : List GoVal),
      List.Forall₂ (buildsElem b uw) rows es →
      (∀ e ∈ es, typeOfVal e = t) →
      ∀ (cur : List GoVal) (i : Nat), cur.length = n → i + rows.length = n →
        absorbMany ⟨.vArray n t cur, i, b, uw⟩ rows =
          some ⟨.vArray n t (cur.take i ++ es), n, b, uw⟩ := by
  intro rows es hf
  induction hf with
  | nil =>
    intro _ cur i hlen hcount
    simp only [List.length_nil, Nat.add_zero] at hcount
    subst hcount
    simp [absorbMany, List.take_of_length_le (le_of_eq hlen)]
  | @cons row e rows' es' hre hrest ih =>
    intro hty cur i hlen hcount
    obtain ⟨e0, hel, hunw⟩ := hre
    have hi : i < n := by simp [List.length_cons] at hcount; omega
    have habs : absorbA ⟨.vArray n t cur, i, b, uw⟩ row =
        some ⟨.vArray n t (cur.set i e), i + 1, b, uw⟩ :=
      absorbA_steps _ _ _ _ _ hel hunw (by simp [hk])
        (accept_array_write n t cur e i hi (hty e (List.mem_cons_self _ _)))
    simp only [absorbMany, habs]
    have := ih (fun e' he' => hty e' (List.mem_cons_of_mem _ he'))
      (cur.set i e) (i + 1) (by simp [hlen]) (by simp [List.length_cons] at hcount ⊢; omega)
    rw [this]
    rw [take_set_succ cur i e (by omega)]
    simp [List.append_assoc]

theorem absorbA_array_full (st : AbsorberState) (n : Nat) (t : GoType) (xs : List GoVal)
    (hset : st.setVal = .vArray n t xs) (hidx : n ≤ st.idx) :
    ∀ row, absorbA st row = none := by
  intro row
  simp only [absorbA]
  split
  · rfl
  · rfl
  · split
    · rfl
    · split
      · rfl
      · rename_i e he
        rw [hset]
        simp only [accept]
        have hnot : ¬(st.idx < n ∧ typeOfVal e = t) := fun hh => absurd hh.1 (by omega)
        simp [hnot]

theorem element_plain_self (b : ElementBuilder) (v : GoVal)
    (hplain : plainKind b.Typ = true) (ht : typeOfVal v = b.Typ) :
    element b [some v] = .val v := by
  cases hb : b.Typ <;> rw [hb] at hplain ht <;> simp only [plainKind] at hplain <;>
    first
      | exact absurd hplain Bool.false_ne_true
      | simp [element, hb, ht]

theorem vPtr_of_typePtr (v : GoVal) (pt : GoType) (h : typeOfVal v = .tPtr pt) :
    ∃ p, v = .vPtr pt p := by
  cases v <;> simp [typeOfVal] at h
  next pt' p => exact ⟨p, by rw [h]⟩

theorem buildsElem_plain (b : ElementBuilder) (v : GoVal) (hplain : plainKind b.Typ = true)
    (ht : typeOfVal v = b.Typ) : buildsElem b true [some v] v := by
  refine ⟨v, element_plain_self b v hplain ht, ?_⟩
  simp only [if_pos rfl]
  apply indirectVal_of_nonPtr
  intro pt p hv
  rw [hv] at ht
  rw [← ht] at hplain
  simp [typeOfVal, plainKind] at hplain

theorem accept_again_single : ∀ (into e nv : GoVal) (idx1 idx2 : Nat),
    singleKind (typeOfVal into) = true →
    accept into e idx1 = some nv →
    (accept nv e idx2).isSome = true := by
  intro into e nv idx1 idx2 hsk h
  cases into <;> simp only [typeOfVal, singleKind] at hsk <;>
    first
      | exact absurd hsk Bool.false_ne_true
      | (cases e <;> simp only [accept] at h <;> (repeat' split at h) <;>
          first
            | exact Option.noConfusion h
            | (injection h with h; subst h; simp_all [accept, typeOfVal]))

theorem GFields.get?_of_lt : ∀ (fs : GFields) (j : Nat), j < fs.length →
    ∃ f, fs.get? j = some f := by
  intro fs
  induction fs using GFields.induct with
  | hnil => intro j h; simp [GFields.length] at h
  | hcons name tags ty rest ih =>
    intro j h
    cases j with
    | zero => exact ⟨(name, tags, ty), rfl⟩
    | succ j' =>
      simp only [GFields.length] at h
      exact ih j' (by omega)

theorem elemStructLoop_short (fs : GFields) :
    ∀ (flds : List (Option Nat)) (values : List (Option GoVal)) (cur : List GoVal) (idx : Nat),
      values.length < idx + flds.length → idx ≤ values.length →
      elemStructLoop fs flds values cur idx = none := by
  intro flds
  induction flds with
  | nil =>
    intro values cur idx h1 h2
    simp only [List.length_nil, Nat.add_zero] at h1
    omega
  | cons f rest ih =>
    intro values cur idx h1 h2
    simp only [List.length_cons] at h1
    by_cases hidx : idx < values.length
    · obtain ⟨vo, hvo⟩ : ∃ vo, values[idx]? = some vo := by
        simp [List.getElem?_eq_getElem hidx]
      cases vo with
      | none =>
        simp only [elemStructLoop, hvo]
        exact ih values cur (idx + 1) (by omega) (by omega)
      | some v =>
        cases f with
        | none =>
          cases hga : goAssign (.tStruct fs) v with
          | none => simp [elemStructLoop, hvo, hga]
          | some w =>
            cases w <;> simp only [elemStructLoop, hvo, hga] <;>
              first
                | rfl
                | exact ih values _ (idx + 1) (by omega) (by omega)
        | some i =>
          cases hfi : fs.get? i with
          | none => simp [elemStructLoop, hvo, hfi]
          | some fld =>
            cases hga : goAssign fld.2.2 v with
            | none => simp [elemStructLoop, hvo, hfi, hga]
            | some w =>
              simp only [elemStructLoop, hvo, hfi, hga]
              exact ih values _ (idx + 1) (by omega) (by omega)
    · have : values[idx]? = none := by
        rw [List.getElem?_eq_none_iff]
        omega
      simp [elemStructLoop, this]

theorem elemStructLoop_fill (fs : GFields) (vals : List GoVal) (n : Nat)
    (hn : fs.length = n) (hvlen : vals.length = n)
    (hty : ∀ j, j < n → (fs.get? j).map (fun f => f.2.2) = (vals[j]?).map typeOfVal) :
    ∀ (mlen : Nat) (t : Nat) (cur : List GoVal), t + mlen = n → cur.length = n →
      elemStructLoop fs ((List.range' t mlen).map some) (vals.map some) cur t =
        some (cur.take t ++ vals.drop t) := by
  intro mlen
  induction mlen with
  | zero =>
    intro t cur hcount hlen
    simp only [Nat.add_zero] at hcount
    subst hcount
    simp [elemStructLoop, List.take_of_length_le (le_of_eq hlen),
      List.drop_eq_nil_of_le (le_of_eq hvlen)]
  | succ m ih =>
    intro t cur hcount hlen
    have ht : t < n := by omega
    have htv : t < vals.length := by omega
    have hval : (vals.map some)[t]? = some (some vals[t]) := by
      simp [List.getElem?_eq_getElem, htv]
    have hfld : (fs.get? t).map (fun f => f.2.2) = some (typeOfVal vals[t]) := by
      rw [hty t ht]
      simp [List.getElem?_eq_getElem htv]
    obtain ⟨fld, hfl⟩ : ∃ f, fs.get? t = some f := by
      cases hf : fs.get? t with
      | none => rw [hf] at hfld; exact Option.noConfusion hfld
      | some f => exact ⟨f, rfl⟩
    have hflty : fld.2.2 = typeOfVal vals[t] := by
      rw [hfl] at hfld
      injection hfld
    have hga : goAssign fld.2.2 vals[t] = some vals[t] :=
      goAssign_eqType _ _ hflty.symm
    simp only [List.range'_succ, List.map_cons, elemStructLoop, hval, hfl, hga]
    have := ih (t + 1) (cur.set t vals[t]) (by omega) (by simp [hlen])
    rw [this]
    rw [take_set_succ cur t vals[t] (by omega)]
    rw [List.drop_eq_getElem_cons htv]
    simp

theorem newBuilder_fields_names (fs : GFields) (tag : String)
    (hdist : namesDistinct fs = true) (huntag : allUntagged tag fs = true) :
    (newBuilder (.tStruct fs) tag (namesOf fs)).Fields =
      (List.range' 0 fs.length).map some := by
  simp only [newBuilder]
  apply List.ext_getElem
  · simp [namesOf_length]
  · intro j h1 h2
    have hj : j < fs.length := by
      simpa [namesOf_length] using h1
    obtain ⟨f, hf⟩ := GFields.get?_of_lt fs j hj
    have hjn : j < (namesOf fs).length := by
      rw [namesOf_length]; exact hj
    simp only [List.getElem_map]
    have hname : (namesOf fs)[j] = f.1 := by
      have h0 := namesOf_getElem? fs j
      rw [hf, List.getElem?_eq_getElem hjn] at h0
      simpa using h0
    rw [hname]
    have huj := allUntagged_get? tag fs j f huntag hf
    have hav : avoidsKey tag f.1 (fs.drop (j + 1)) = true :=
      avoidsKey_of_untagged tag f.1 _ (allUntagged_drop tag fs (j + 1) huntag)
        (nameMem_drop_of_distinct fs j f hdist hf)
    have hhit : mapLookup (buildMappedAux tag 0 fs []) f.1 = some (0 + j) :=
      buildMappedAux_hit tag fs j f f.1 0 [] hf (by rw [huj]) hav
    have hres : resolveKey (buildMapped tag fs) f.1 = some j := by
      simp only [resolveKey, buildMapped, hhit, Nat.zero_add]
    rw [hres, List.getElem_range']
    simp

theorem elemMapLoop_spec (vt : GoType) :
    ∀ (ks : List String) (vs : List (Option GoVal)) (acc : List (String × GoVal))
      (hlen : vs.length = ks.length) (hnd : ks.Nodup)
      (hval : ∀ (i : Nat) (h : i < vs.length) (v : GoVal),
        vs[i] = some v → (goAssign vt v).isSome),
      ∃ entries, elemMapLoop vt ks vs acc = some entries ∧
        (∀ k, k ∉ ks → mapLookup entries k = mapLookup acc k) ∧
        (∀ (i : Nat) (h : i < ks.length),
          mapLookup entries ks[i] =
            match vs.get ⟨i, by omega⟩ with
            | none => mapLookup acc ks[i]
            | some v => goAssign vt v) := by
  intro ks
  induction ks with
  | nil =>
    intro vs acc hlen _ _
    have hvs : vs = [] := List.eq_nil_of_length_eq_zero (by simpa using hlen)
    subst hvs
    exact ⟨acc, rfl, fun k _ => rfl, fun i h => absurd h (by simp)⟩
  | cons k ks' ih =>
    intro vs acc hlen hnd hval
    cases vs with
    | nil => simp at hlen
    | cons vo vs' =>
      simp only [List.length_cons] at hlen
      have hnd' : ks'.Nodup := (List.nodup_cons.mp hnd).2
      have hknotin : k ∉ ks' := (List.nodup_cons.mp hnd).1
      cases vo with
      | none =>
        obtain ⟨entries, heq, hout, hin⟩ := ih vs' acc (by omega) hnd'
          (fun i h v hv => hval (i + 1) (by simp; omega) v (by simpa using hv))
        refine ⟨entries, by simp [elemMapLoop, heq], ?_, ?_⟩
        · intro kk hkk
          exact hout kk (fun hm => hkk (List.mem_cons_of_mem _ hm))
        · intro i h
          cases i with
          | zero => simpa using hout k hknotin
          | succ i' => simpa using hin i' (by simpa using h)
      | some v =>
        have hv0 : (goAssign vt v).isSome := hval 0 (by simp) v rfl
        obtain ⟨w, hw⟩ := Option.isSome_iff_exists.mp hv0
        obtain ⟨entries, heq, hout, hin⟩ := ih vs' (mapInsert acc k w) (by omega) hnd'
          (fun i h vv hv => hval (i + 1) (by simp; omega) vv (by simpa using hv))
        refine ⟨entries, by simp [elemMapLoop, hw, heq], ?_, ?_⟩
        · intro kk hkk
          have h1 : kk ∉ ks' := fun hm => hkk (List.mem_cons_of_mem _ hm)
          have h2 : kk ≠ k := fun he => hkk (he ▸ List.mem_cons_self _ _)
          rw [hout kk h1, mapLookup_insert_ne acc k kk w h2]
        · intro i h
          cases i with
          | zero =>
            simp only [List.get_eq_getElem, List.getElem_cons_zero]
            rw [hout k hknotin, mapLookup_insert_self, hw]
          | succ i' =>
            have hi' : i' < ks'.length := by simpa using h
            have hb : i' < vs'.length := by omega
            have hne : ks'[i'] ≠ k := by
              intro he
              exact hknotin (he ▸ List.getElem_mem _)
            have hrec := hin i' hi'
            simp only [List.get_eq_getElem] at hrec
            simp only [List.get_eq_getElem, List.getElem_cons_succ]
            cases hvv : vs'[i'] with
            | none =>
              simp only [hvv] at hrec
              rw [hrec, mapLookup_insert_ne acc k _ w hne]
            | some v' =>
              simp only [hvv] at hrec
              exact hrec

theorem openCore_Keys (t : GoType) (tag : String) (count : Int) (keys : List String)
    (bu : ElementBuilder × Bool) (h : openCore t tag count keys = some bu) :
    bu.1.Keys = keys := by
  simp only [openCore] at h
  split at h
  · exact Option.noConfusion h
  · injection h with h
    rw [← h]
    exact newBuilder_Keys _ tag keys
  · injection h with h
    rw [← h]
    exact newBuilder_Keys _ tag keys

/-- C2: on a scalar, single-record or single-mapping destination the
claim holds only for sessions opened with no keys: the second `Absorb`
then panics, and a fresh `Open` resets the cursor so that the same row
is absorbed again successfully. -/
theorem claim2_single_overflow_amended
    (dst : GoVal) (tag : String) (count : Int)
    (vals vals2 : List (Option GoVal)) (st st1 : AbsorberState)
    (hsk : singleKind (typeOfVal dst) = true)
    (hopen : openA dst tag count [] = some st)
    (habs : absorbA st vals = some st1) :
    absorbA st1 vals2 = none ∧
      ∃ st2, openA st1.setVal tag count [] = some st2 ∧
        st2.idx = 0 ∧ (absorbA st2 vals).isSome = true := by
  obtain ⟨bu, hcore, hst⟩ := Option.map_eq_some'.mp hopen
  have hstval : st.setVal = dst := by rw [← hst]
  have hstidx : st.idx = 0 := by rw [← hst]
  have hstb : st.builder = bu.1 := by rw [← hst]
  have hstu : st.unwrap = bu.2 := by rw [← hst]
  have hkeys : st.builder.Keys = [] := by rw [hstb]; exact openCore_Keys _ tag count [] bu hcore
  obtain ⟨hty1, hidx1, hb1, hu1⟩ := absorbA_some_inv st vals st1 habs
  constructor
  · exact absorbA_noKeys_used st1 vals2 (by rw [hb1]; exact hkeys) (by omega)
  · obtain ⟨e0, e, nv, hel, hunw, hacc, hst1⟩ := absorbA_some_parts st vals st1 habs
    have hnv : st1.setVal = nv := by rw [hst1]
    have hreopen : openA st1.setVal tag count [] =
        some ⟨st1.setVal, 0, bu.1, bu.2⟩ := by
      simp only [openA]
      rw [hty1, hstval, hcore]
      rfl
    refine ⟨⟨st1.setVal, 0, bu.1, bu.2⟩, hreopen, rfl, ?_⟩
    have hacc0 : accept dst e 0 = some nv := by
      rw [← hstval, ← hstidx]
      exact hacc
    have hagain : (accept nv e 0).isSome = true :=
      accept_again_single dst e nv 0 0 hsk hacc0
    obtain ⟨out, hout⟩ := Option.isSome_iff_exists.mp hagain
    have : absorbA ⟨st1.setVal, 0, bu.1, bu.2⟩ vals = some ⟨out, 1, bu.1, bu.2⟩ := by
      apply absorbA_steps
      · rw [← hstb]; exact hel
      · rw [← hstu]; exact hunw
      · simp
      · rw [hnv]; exact hout
    simp [this]

/-- C6: a growable byte-sequence destination opened with no keys takes a
single whole-blob `Absorb` that sets the destination to the blob, and
any second `Absorb` panics; opened with a key, every `Absorb` appends
one single-byte element. -/
theorem claim6_byte_buffer (bs blob : List GoVal) (tag : String) (count : Int) (k : String) :
    (∃ st1, (openA (.vSlice .tUint8 bs) tag count []).bind
        (fun st => absorbA st [some (.vSlice .tUint8 blob)]) = some st1 ∧
      st1.setVal = .vSlice .tUint8 blob ∧
      ∀ vals2, absorbA st1 vals2 = none) ∧
    (openA (.vSlice .tUint8 bs) tag count [k] =
      some ⟨.vSlice .tUint8 bs, 0, newBuilder .tUint8 tag [k], true⟩) ∧
    (∀ (b : Int) (xs : List GoVal) (i : Nat),
      absorbA ⟨.vSlice .tUint8 xs, i, newBuilder .tUint8 tag [k], true⟩ [some (.vUint8 b)] =
        some ⟨.vSlice .tUint8 (xs ++ [.vUint8 b]), i + 1, newBuilder .tUint8 tag [k], true⟩) := by
  refine ⟨?_, rfl, ?_⟩
  · refine ⟨⟨.vSlice .tUint8 blob, 1, newBuilder (.tSlice .tUint8) tag [], true⟩, rfl, rfl, ?_⟩
    intro vals2
    exact absorbA_noKeys_used _ vals2 rfl Nat.one_pos
  · intro b xs i
    apply absorbA_steps
    · exact element_plain_self _ _ rfl rfl
    · rfl
    · simp [newBuilder_Keys]
    · exact accept_slice_append .tUint8 xs (.vUint8 b) i rfl

/-- C7: a fixed-size buffer destination of capacity `c` rejects a count
hint above `c` at `Open`; a session that absorbs `c` well-formed rows
fills the buffer in order, and every further `Absorb` panics. -/
theorem claim7_fixed_capacity (n : Nat) (t : GoType) (arr : List GoVal) (tag : String)
    (keys : List String) (count : Int) (rows : List (List (Option GoVal))) (es : List GoVal)
    (st : AbsorberState)
    (harr : arr.length = n)
    (hk : keys ≠ [])
    (hopen : openA (.vArray n t arr) tag count keys = some st)
    (hf : List.Forall₂ (buildsElem st.builder st.unwrap) rows es)
    (hty : ∀ e ∈ es, typeOfVal e = t)
    (hlen : rows.length = n) :
    (∀ (count2 : Int) (keys2 : List String), (n : Int) < count2 →
      openA (.vArray n t arr) tag count2 keys2 = none) ∧
    ∃ stN, absorbMany st rows = some stN ∧
      stN.setVal = .vArray n t es ∧ stN.idx = n ∧
      ∀ row2, absorbA stN row2 = none := by
  constructor
  · intro count2 keys2 hcount2
    simp [openA, openCore, openElemType, typeOfVal, hcount2]
  · obtain ⟨bu, hcore, hst⟩ := Option.map_eq_some'.mp hopen
    have hkeys : st.builder.Keys = keys := by
      rw [← hst]
      exact openCore_Keys _ tag count keys bu hcore
    have hsv : st.setVal = .vArray n t arr := by rw [← hst]
    have hsi : st.idx = 0 := by rw [← hst]
    have hmany := absorbMany_array n t st.builder st.unwrap (by rw [hkeys]; exact hk)
      rows es hf hty arr 0 harr (by omega)
    have hstrepr : st = ⟨.vArray n t arr, 0, st.builder, st.unwrap⟩ := by
      rw [← hsv, ← hsi]
    rw [← hstrepr] at hmany
    refine ⟨⟨.vArray n t (List.take 0 arr ++ es), n, st.builder, st.unwrap⟩, hmany, by simp, rfl, ?_⟩
    intro row2
    exact absorbA_array_full _ n t (List.take 0 arr ++ es) rfl (le_refl n) row2

/-- C8: a growable-sequence destination opened with at least one key
accumulates exactly the emitted elements, in emission order, for any
number of rows. -/
theorem claim8_sequence_accumulation (t : GoType) (tag : String) (count : Int)
    (keys : List String) (rows : List (List (Option GoVal))) (es : List GoVal)
    (st : AbsorberState)
    (hk : keys ≠ [])
    (hopen : openA (.vSlice t []) tag count keys = some st)
    (hf : List.Forall₂ (buildsElem st.builder st.unwrap) rows es)
    (hty : ∀ e ∈ es, typeOfVal e = t) :
    ∃ st', absorbMany st rows = some st' ∧
      st'.setVal = .vSlice t es ∧ st'.idx = rows.length := by
  obtain ⟨bu, hcore, hst⟩ := Option.map_eq_some'.mp hopen
  have hkeys : st.builder.Keys = keys := by
    rw [← hst]
    exact openCore_Keys _ tag count keys bu hcore
  have hsv : st.setVal = .vSlice t [] := by rw [← hst]
  have hsi : st.idx = 0 := by rw [← hst]
  have hmany := absorbMany_slice t st.builder st.unwrap (by rw [hkeys]; exact hk)
    rows es hf hty [] 0
  have hstrepr : st = ⟨.vSlice t [], 0, st.builder, st.unwrap⟩ := by
    rw [← hsv, ← hsi]
  rw [← hstrepr] at hmany
  exact ⟨⟨.vSlice t ([] ++ es), 0 + rows.length, st.builder, st.unwrap⟩, hmany, by simp, by simp⟩

/-- C3: for a struct element type whose fields carry no tag in the
session's namespace, opening with the field names as keys and absorbing
one row of directly-assignable values produces one element whose fields
are exactly the row. -/
theorem claim3_round_trip (fs : GFields) (tag : String) (count : Int) (dst : GoVal)
    (vals : List GoVal)
    (hdst : typeOfVal dst = .tStruct fs)
    (hcount : ¬ 1 < count)
    (hdist : namesDistinct fs = true)
    (huntag : allUntagged tag fs = true)
    (hvlen : vals.length = fs.length)
    (hty : ∀ j, j < fs.length → (fs.get? j).map (fun f => f.2.2) = (vals[j]?).map typeOfVal) :
    ∃ st st', openA dst tag count (namesOf fs) = some st ∧
      absorbA st (vals.map some) = some st' ∧
      st'.setVal = .vStruct fs vals := by
  have hopen : openA dst tag count (namesOf fs) =
      some ⟨dst, 0, newBuilder (.tStruct fs) tag (namesOf fs), true⟩ := by
    simp only [openA, hdst, openCore, openElemType]
    rw [if_neg hcount]
    rfl
  have hfields : (namesOf fs).map (resolveKey (buildMapped tag fs)) =
      (List.range' 0 fs.length).map some := by
    have := newBuilder_fields_names fs tag hdist huntag
    simpa [newBuilder] using this
  have hloop : elemStructLoop fs ((List.range' 0 fs.length).map some)
      (vals.map some) (zeroFields fs) 0 = some vals := by
    have := elemStructLoop_fill fs vals fs.length rfl hvlen hty fs.length 0
      (zeroFields fs) (by omega) (zeroFields_length fs)
    simpa using this
  have hel : element (newBuilder (.tStruct fs) tag (namesOf fs)) (vals.map some) =
      .val (.vPtr (.tStruct fs) (some (.vStruct fs vals))) := by
    simp only [element, newBuilder, hfields, hloop]
  obtain ⟨xs0, hxs0⟩ := typeOfVal_struct_inv dst fs hdst
  have habs : absorbA ⟨dst, 0, newBuilder (.tStruct fs) tag (namesOf fs), true⟩
      (vals.map some) =
      some ⟨.vStruct fs vals, 1, newBuilder (.tStruct fs) tag (namesOf fs), true⟩ := by
    apply absorbA_steps
    · exact hel
    · rfl
    · simp
    · rw [hxs0]
      simp [accept, typeOfVal]
  exact ⟨_, _, hopen, habs, rfl⟩

theorem lowerChar_idem (c : Char) : lowerChar (lowerChar c) = lowerChar c := by
  unfold lowerChar
  by_cases h : c.isUpper
  · simp only [h, if_pos]
    have hval : (65 : UInt32) ≤ c.val ∧ c.val ≤ 90 := by
      simpa [Char.isUpper, Bool.and_eq_true, decide_eq_true_eq] using h
    have h1 : 65 ≤ c.toNat := by exact_mod_cast hval.1
    have h2 : c.toNat ≤ 90 := by exact_mod_cast hval.2
    generalize hm : c.toNat = m at h1 h2 ⊢
    interval_cases m <;> decide
  · simp [h]

theorem lowerStr_idem (s : String) : lowerStr (lowerStr s) = lowerStr s := by
  simp only [lowerStr, List.map_map]
  congr 1
  apply List.map_congr_left
  intro c _
  exact lowerChar_idem c

/-- C4: a field with a non-empty declared tag value in the session's
namespace binds via that tag value (when no later field re-registers
it); keys equal to the field's own name or its lowercased name do not
bind to it; and a field whose tag in the namespace is present but empty
is never bound by any key. -/
theorem claim4_annotation_precedence (fs : GFields) (tag : String) (j : Nat)
    (f : String × GTags × GoType) (tv : String)
    (hget : fs.get? j = some f)
    (htag : tagLookup f.2.1 tag = some tv) :
    (tv ≠ "" → avoidsKey tag tv (fs.drop (j + 1)) = true →
      resolveKey (buildMapped tag fs) tv = some j) ∧
    (f.1 ≠ tv → lowerStr f.1 ≠ tv →
      resolveKey (buildMapped tag fs) f.1 ≠ some j ∧
      resolveKey (buildMapped tag fs) (lowerStr f.1) ≠ some j) ∧
    (tv = "" → ∀ k, resolveKey (buildMapped tag fs) k ≠ some j) := by
  have horigin : ∀ k, mapLookup (buildMapped tag fs) k = some j → tv ≠ "" ∧ k = tv := by
    intro k hk
    rcases buildMappedAux_origin tag fs 0 [] k j hk with h0 | ⟨j', f', hget', hj', hentry⟩
    · exact Option.noConfusion h0
    · have hjj : j' = j := by omega
      subst hjj
      rw [hget] at hget'
      injection hget' with hf'
      subst hf'
      simpa only [entryFor, htag] using hentry
  have hres_imp : ∀ k, resolveKey (buildMapped tag fs) k = some j →
      (tv ≠ "" ∧ k = tv) ∨ (tv ≠ "" ∧ lowerStr k = tv) := by
    intro k hk
    unfold resolveKey at hk
    cases hm : mapLookup (buildMapped tag fs) k with
    | some i =>
      rw [hm] at hk
      simp only at hk
      rw [hk] at hm
      exact Or.inl (horigin k hm)
    | none =>
      rw [hm] at hk
      simp only at hk
      exact Or.inr (horigin (lowerStr k) hk)
  refine ⟨?_, ?_, ?_⟩
  · intro hne hav
    have hhit : mapLookup (buildMappedAux tag 0 fs []) tv = some (0 + j) :=
      buildMappedAux_hit tag fs j f tv 0 [] hget (by rw [htag]; exact ⟨hne, rfl⟩) hav
    simp only [resolveKey, buildMapped, hhit, Nat.zero_add]
  · intro hn1 hn2
    constructor
    · intro hk
      rcases hres_imp f.1 hk with ⟨_, h⟩ | ⟨_, h⟩
      · exact hn1 h
      · exact hn2 h
    · intro hk
      rcases hres_imp (lowerStr f.1) hk with ⟨_, h⟩ | ⟨_, h⟩
      · exact hn2 h
      · -- lowerStr (lowerStr f.1) = tv; lowering is idempotent
        rw [lowerStr_idem] at h
        exact hn2 h
  · intro hemp k hk
    rcases hres_imp k hk with ⟨h, _⟩ | ⟨h, _⟩ <;> exact h hemp

/-- C5: binding a row with exactly one absent value into a keyed-mapping
destination omits exactly that key, while every key with a valid value
is present with its assigned value. -/
theorem claim5_null_omission (vt : GoType) (dst : GoVal) (tag : String) (count : Int)
    (keys : List String) (vals : List (Option GoVal)) (p : Nat)
    (hdst : typeOfVal dst = .tMap vt)
    (hcount : ¬ 1 < count)
    (hlen : vals.length = keys.length)
    (hnd : keys.Nodup)
    (hp : p < vals.length)
    (hnull : vals[p] = none)
    (hvalid : ∀ (i : Nat) (h : i < vals.length), i ≠ p →
      (rowAssign vt vals[i]).isSome = true) :
    ∃ st st' entries, openA dst tag count keys = some st ∧
      absorbA st vals = some st' ∧ st'.setVal = .vMap vt entries ∧
      mapLookup entries (keys.get ⟨p, by omega⟩) = none ∧
      ∀ (i : Nat) (h : i < keys.length),
        mapLookup entries keys[i] = rowAssign vt (vals.get ⟨i, by omega⟩) := by
  have hopen : openA dst tag count keys =
      some ⟨dst, 0, newBuilder (.tMap vt) tag keys, true⟩ := by
    simp only [openA, hdst, openCore, openElemType]
    rw [if_neg hcount]
    rfl
  have hval' : ∀ (i : Nat) (h : i < vals.length) (v : GoVal),
      vals[i] = some v → (goAssign vt v).isSome := by
    intro i h v hv
    by_cases hip : i = p
    · subst hip
      rw [hnull] at hv
      exact Option.noConfusion hv
    · have := hvalid i h hip
      rw [hv] at this
      simpa [rowAssign] using this
  obtain ⟨entries, hloop, hout, hin⟩ := elemMapLoop_spec vt keys vals [] hlen hnd hval'
  have hel : element (newBuilder (.tMap vt) tag keys) vals =
      .val (.vMap vt entries) := by
    simp only [element, newBuilder, hloop]
  obtain ⟨m0, hm0⟩ := typeOfVal_map_inv dst vt hdst
  have habs : absorbA ⟨dst, 0, newBuilder (.tMap vt) tag keys, true⟩ vals =
      some ⟨.vMap vt entries, 1, newBuilder (.tMap vt) tag keys, true⟩ := by
    apply absorbA_steps
    · exact hel
    · rfl
    · simp
    · rw [hm0]
      simp [accept, typeOfVal]
  refine ⟨_, _, entries, hopen, habs, rfl, ?_, ?_⟩
  · have hpk : p < keys.length := by omega
    have hthis := hin p hpk
    simp only [List.get_eq_getElem] at hthis ⊢
    rw [hnull] at hthis
    simp only at hthis
    rw [hthis]
    rfl
  · intro i h
    have hthis := hin i h
    have hb : i < vals.length := by omega
    simp only [List.get_eq_getElem] at hthis ⊢
    cases hv : vals[i] with
    | none =>
      simp only [hv] at hthis
      rw [hthis]
      simp [rowAssign, mapLookup]
    | some v =>
      simp only [hv] at hthis
      simpa [rowAssign] using hthis

theorem element_plain_empty (b : ElementBuilder) (hplain : plainKind b.Typ = true) :
    element b [] = .invalid := by
  cases hb : b.Typ <;> rw [hb] at hplain <;> simp only [plainKind] at hplain <;>
    first
      | exact absurd hplain Bool.false_ne_true
      | simp [element, hb]

theorem element_plain_multi (b : ElementBuilder) (v1 v2 : Option GoVal)
    (rest : List (Option GoVal)) (hplain : plainKind b.Typ = true) :
    element b (v1 :: v2 :: rest) = .panic := by
  cases hb : b.Typ <;> rw [hb] at hplain <;> simp only [plainKind] at hplain <;>
    first
      | exact absurd hplain Bool.false_ne_true
      | simp [element, hb]

/-- C1: a column under an unmatched key is silently ignored only when
its value is absent (nil); a present value under an unmatched key is
assigned to the element as a whole, and `Absorb` fails fatally when the
value cannot be converted to the element type. -/
theorem claim1_unmatched_key_amended (fs : GFields) (tag : String) (k : String)
    (dst : GoVal) (count : Int)
    (hdst : typeOfVal dst = .tStruct fs)
    (hcount : ¬ 1 < count)
    (hunres : resolveKey (buildMapped tag fs) k = none) :
    (∃ st st', openA dst tag count [k] = some st ∧ absorbA st [none] = some st' ∧
      st'.setVal = .vStruct fs (zeroFields fs)) ∧
    (∀ v : GoVal, goAssign (.tStruct fs) v = none →
      ∀ st, openA dst tag count [k] = some st → absorbA st [some v] = none) := by
  have hopen : openA dst tag count [k] =
      some ⟨dst, 0, newBuilder (.tStruct fs) tag [k], true⟩ := by
    simp only [openA, hdst, openCore, openElemType]
    rw [if_neg hcount]
    rfl
  have hfields : (newBuilder (.tStruct fs) tag [k]).Fields = [none] := by
    simp [newBuilder, hunres]
  constructor
  · obtain ⟨xs0, hxs0⟩ := typeOfVal_struct_inv dst fs hdst
    have hel : element (newBuilder (.tStruct fs) tag [k]) [none] =
        .val (.vPtr (.tStruct fs) (some (.vStruct fs (zeroFields fs)))) := by
      simp only [element, newBuilder, hunres]
      simp [elemStructLoop]
    have habs : absorbA ⟨dst, 0, newBuilder (.tStruct fs) tag [k], true⟩ [none] =
        some ⟨.vStruct fs (zeroFields fs), 1, newBuilder (.tStruct fs) tag [k], true⟩ := by
      apply absorbA_steps
      · exact hel
      · rfl
      · simp
      · rw [hxs0]
        simp [accept, typeOfVal]
    exact ⟨_, _, hopen, habs, rfl⟩
  · intro v hga st hst
    rw [hopen] at hst
    injection hst with hst
    subst hst
    have hel : element (newBuilder (.tStruct fs) tag [k]) [some v] = .panic := by
      simp only [element, newBuilder, hunres]
      simp [elemStructLoop, hga, hunres]
    simp [absorbA, hel]

/-- C9: the value-count rule the code enforces: a record element panics
when fewer values than keys are supplied (extra values are ignored),
and a scalar slot panics for an empty row or for more than one
value. -/
theorem claim9_value_count_amended (st : AbsorberState) :
    (∀ (fs : GFields) (tag : String) (keys : List String) (vals : List (Option GoVal)),
      st.builder = newBuilder (.tStruct fs) tag keys →
      vals.length < keys.length →
      absorbA st vals = none) ∧
    (plainKind st.builder.Typ = true →
      absorbA st [] = none ∧
      ∀ (v1 v2 : Option GoVal) (rest : List (Option GoVal)),
        absorbA st (v1 :: v2 :: rest) = none) := by
  constructor
  · intro fs tag keys vals hb hshort
    have hloop : elemStructLoop fs (keys.map (resolveKey (buildMapped tag fs)))
        vals (zeroFields fs) 0 = none := by
      apply elemStructLoop_short
      · simpa using hshort
      · omega
    have hel : element st.builder vals = .panic := by
      rw [hb]
      simp only [element, newBuilder, hloop]
    simp [absorbA, hel]
  · intro hplain
    constructor
    · simp [absorbA, element_plain_empty st.builder hplain]
    · intro v1 v2 rest
      simp [absorbA, element_plain_multi st.builder v1 v2 rest hplain]

/-- C1 counterexample: a key matching no field whose column holds a
present string value makes `Absorb` panic (the value is assigned to the
element as a whole and the conversion fails), contradicting the claim
that the column is silently ignored. -/
theorem claim1_unmatched_key_counterexample :
    (openA (.vStruct nameOnlyFields [.vStr ""]) "" 1 ["Nope"]).bind
      (fun st => absorbA st [some (.vStr "x")]) = none := by rfl

/-- C1 witness: the amended claim at a concrete one-field struct. -/
theorem claim1_unmatched_key_amended_witness :
    (typeOfVal (.vStruct nameOnlyFields [.vStr ""]) = .tStruct nameOnlyFields ∧
      resolveKey (buildMapped "" nameOnlyFields) "Nope" = none) ∧
    ((∃ st st', openA (.vStruct nameOnlyFields [.vStr ""]) "" 1 ["Nope"] = some st ∧
        absorbA st [none] = some st' ∧
        st'.setVal = .vStruct nameOnlyFields (zeroFields nameOnlyFields)) ∧
      absorbA ⟨.vStruct nameOnlyFields [.vStr ""], 0,
          newBuilder (.tStruct nameOnlyFields) "" ["Nope"], true⟩ [some (.vStr "x")] = none) :=
  have h := claim1_unmatched_key_amended nameOnlyFields "" "Nope"
    (.vStruct nameOnlyFields [.vStr ""]) 1 rfl (by decide) rfl
  ⟨⟨rfl, rfl⟩, h.1, h.2 (.vStr "x") rfl _ rfl⟩

/-- C2 counterexample: a single-record destination opened with keys
accepts a second `Absorb` without panicking, silently overwriting the
record. -/
theorem claim2_single_overflow_counterexample :
    ((openA (.vStruct nameOnlyFields [.vStr ""]) "" 1 ["Name"]).bind
        (fun st => absorbA st [some (.vStr "a")])).bind
      (fun st => absorbA st [some (.vStr "b")]) =
    some ⟨.vStruct nameOnlyFields [.vStr "b"], 2,
      newBuilder (.tStruct nameOnlyFields) "" ["Name"], true⟩ := by rfl

/-- C2 witness: the amended claim at a concrete scalar destination. -/
theorem claim2_single_overflow_witness :
    (singleKind (typeOfVal (.vInt 0)) = true ∧
      openA (.vInt 0) "" 1 [] =
        some ⟨.vInt 0, 0, newBuilder .tInt "" [], true⟩ ∧
      absorbA ⟨.vInt 0, 0, newBuilder .tInt "" [], true⟩ [some (.vInt 5)] =
        some ⟨.vInt 5, 1, newBuilder .tInt "" [], true⟩) ∧
    (absorbA ⟨.vInt 5, 1, newBuilder .tInt "" [], true⟩ [some (.vInt 7)] = none ∧
      ∃ st2, openA (.vInt 5) "" 1 [] = some st2 ∧
        st2.idx = 0 ∧ (absorbA st2 [some (.vInt 5)]).isSome = true) :=
  ⟨⟨rfl, rfl, rfl⟩,
    claim2_single_overflow_amended (.vInt 0) "" 1 [some (.vInt 5)] [some (.vInt 7)]
      ⟨.vInt 0, 0, newBuilder .tInt "" [], true⟩
      ⟨.vInt 5, 1, newBuilder .tInt "" [], true⟩ rfl rfl rfl⟩

/-- C3 witness: the round-trip at a concrete two-field struct. -/
theorem claim3_round_trip_witness :
    (namesDistinct roundTripFields = true ∧ allUntagged "" roundTripFields = true) ∧
    ∃ st st', openA (.vStruct roundTripFields [.vStr "", .vInt 0]) "" 1
        (namesOf roundTripFields) = some st ∧
      absorbA st ([GoVal.vStr "x", GoVal.vInt 7].map some) = some st' ∧
      st'.setVal = .vStruct roundTripFields [.vStr "x", .vInt 7] :=
  ⟨⟨rfl, rfl⟩,
    claim3_round_trip roundTripFields "" 1 (.vStruct roundTripFields [.vStr "", .vInt 0])
      [.vStr "x", .vInt 7] rfl (by decide) rfl rfl rfl (by decide)⟩

/-- C4 witness: the tagged field of the test struct binds only via its
tag value. -/
theorem claim4_annotation_precedence_witness :
    (testDstFields.get? 1 = some ("Actual", [("test", "Aliased")], .tInt)) ∧
    resolveKey (buildMapped "test" testDstFields) "Aliased" = some 1 ∧
    resolveKey (buildMapped "test" testDstFields) "Actual" ≠ some 1 ∧
    resolveKey (buildMapped "test" testDstFields) (lowerStr "Actual") ≠ some 1 :=
  have h := claim4_annotation_precedence testDstFields "test" 1
    ("Actual", [("test", "Aliased")], .tInt) "Aliased" rfl rfl
  ⟨rfl, h.1 (by decide) rfl, (h.2.1 (by decide) (by decide)).1,
    (h.2.1 (by decide) (by decide)).2⟩

/-- C5 witness: the keyed-mapping scenario of the test suite, with a
nil value in the second column. -/
theorem claim5_null_omission_witness :
    ([some (GoVal.vInt 55), none].length = ["One", "Two"].length ∧
      ["One", "Two"].Nodup) ∧
    ∃ st st' entries, openA (.vMap .tInt []) "" 1 ["One", "Two"] = some st ∧
      absorbA st [some (.vInt 55), none] = some st' ∧
      st'.setVal = .vMap .tInt entries ∧
      mapLookup entries "Two" = none ∧
      ∀ (i : Nat) (h : i < (["One", "Two"] : List String).length),
        mapLookup entries (["One", "Two"] : List String)[i] =
          rowAssign .tInt ([some (GoVal.vInt 55), none].get ⟨i, by simpa using h⟩) :=
  ⟨⟨rfl, by decide⟩,
    claim5_null_omission .tInt (.vMap .tInt []) "" 1 ["One", "Two"]
      [some (.vInt 55), none] 1 rfl (by decide) rfl (by decide) (by decide) rfl
      (by decide)⟩

/-- C7 witness: the four-element array scenario of the test suite. -/
theorem claim7_fixed_capacity_witness :
    ((List.replicate 4 (GoVal.vInt 0)).length = 4 ∧
      openA (.vArray 4 .tInt (List.replicate 4 (.vInt 0))) "" 4 ["int"] =
        some ⟨.vArray 4 .tInt (List.replicate 4 (.vInt 0)), 0,
          newBuilder .tInt "" ["int"], true⟩) ∧
    ((∀ (count2 : Int) (keys2 : List String), (4 : Int) < count2 →
        openA (.vArray 4 .tInt (List.replicate 4 (.vInt 0))) "" count2 keys2 = none) ∧
      ∃ stN, absorbMany ⟨.vArray 4 .tInt (List.replicate 4 (.vInt 0)), 0,
          newBuilder .tInt "" ["int"], true⟩
          [[some (.vInt 34)], [some (.vInt 55)], [some (.vInt 22)], [some (.vInt 1)]] =
          some stN ∧
        stN.setVal = .vArray 4 .tInt [.vInt 34, .vInt 55, .vInt 22, .vInt 1] ∧
        stN.idx = 4 ∧ ∀ row2, absorbA stN row2 = none) :=
  ⟨⟨rfl, rfl⟩,
    claim7_fixed_capacity 4 .tInt (List.replicate 4 (.vInt 0)) "" ["int"] 4
      [[some (.vInt 34)], [some (.vInt 55)], [some (.vInt 22)], [some (.vInt 1)]]
      [.vInt 34, .vInt 55, .vInt 22, .vInt 1]
      ⟨.vArray 4 .tInt (List.replicate 4 (.vInt 0)), 0, newBuilder .tInt "" ["int"], true⟩
      rfl (by decide) rfl
      (.cons ⟨.vInt 34, rfl, rfl⟩ (.cons ⟨.vInt 55, rfl, rfl⟩
        (.cons ⟨.vInt 22, rfl, rfl⟩ (.cons ⟨.vInt 1, rfl, rfl⟩ .nil))))
      (by decide) rfl⟩

/-- C8 witness: the slice scenario of the test suite, in emission
order. -/
theorem claim8_sequence_accumulation_witness :
    (openA (.vSlice .tInt []) "" 4 ["n"] =
      some ⟨.vSlice .tInt [], 0, newBuilder .tInt "" ["n"], true⟩) ∧
    ∃ st', absorbMany ⟨.vSlice .tInt [], 0, newBuilder .tInt "" ["n"], true⟩
        [[some (.vInt 34)], [some (.vInt 55)], [some (.vInt 22)], [some (.vInt 1)]] =
        some st' ∧
      st'.setVal = .vSlice .tInt [.vInt 34, .vInt 55, .vInt 22, .vInt 1] ∧
      st'.idx = 4 :=
  ⟨rfl,
    claim8_sequence_accumulation .tInt "" 4 ["n"]
      [[some (.vInt 34)], [some (.vInt 55)], [some (.vInt 22)], [some (.vInt 1)]]
      [.vInt 34, .vInt 55, .vInt 22, .vInt 1]
      ⟨.vSlice .tInt [], 0, newBuilder .tInt "" ["n"], true⟩
      (by decide) rfl
      (.cons ⟨.vInt 34, rfl, rfl⟩ (.cons ⟨.vInt 55, rfl, rfl⟩
        (.cons ⟨.vInt 22, rfl, rfl⟩ (.cons ⟨.vInt 1, rfl, rfl⟩ .nil))))
      (by decide)⟩

/-- C9 counterexample: a record element with one key accepts a row of
two values without panicking; the extra value is silently ignored. -/
theorem claim9_value_count_counterexample :
    (openA (.vStruct singleIntField [.vInt 0]) "" 1 ["A"]).bind
      (fun st => absorbA st [some (.vInt 1), some (.vInt 2)]) =
    some ⟨.vStruct singleIntField [.vInt 1], 1,
      newBuilder (.tStruct singleIntField) "" ["A"], true⟩ := by rfl

/-- C9 witness: the amended count rule at concrete record and scalar
sessions. -/
theorem claim9_value_count_amended_witness :
    absorbA ⟨.vStruct twoIntFields [.vInt 0, .vInt 0], 0,
        newBuilder (.tStruct twoIntFields) "" ["A", "B"], true⟩ [some (.vInt 1)] = none ∧
    absorbA ⟨.vInt 0, 0, newBuilder .tInt "" [], true⟩ [] = none ∧
    absorbA ⟨.vInt 0, 0, newBuilder .tInt "" [], true⟩
      [some (.vInt 1), some (.vInt 3)] = none :=
  ⟨(claim9_value_count_amended _).1 twoIntFields "" ["A", "B"] [some (.vInt 1)] rfl
      (by decide),
    ((claim9_value_count_amended ⟨.vInt 0, 0, newBuilder .tInt "" [], true⟩).2 rfl).1,
    ((claim9_value_count_amended ⟨.vInt 0, 0, newBuilder .tInt "" [], true⟩).2 rfl).2
      (some (.vInt 1)) (some (.vInt 3)) []⟩
